import Mathlib

/-
Verification of the two-pointer algorithms library (two_pointer.py).

Each Python function is shallowly embedded as an executable Lean
definition: arrays become lists of integers, strings become lists of
characters, and singly-linked heaps become a finite successor map
`next : Fin n → Option (Fin n)` together with an optional head node.
Unbounded while loops are embedded with an explicit fuel parameter, one
unit per loop iteration, where the result `none` means the fuel ran out
before the loop exited.
-/

set_option maxHeartbeats 1000000

namespace TwoPointer

/-! ### merge_sorted_arrays

Python source:
```
merged = []
i, j = 0, 0
while i < len(arr1) and j < len(arr2):
    if arr1[i] < arr2[j]:
        merged.append(arr1[i]); i += 1
    else:
        merged.append(arr2[j]); j += 1
merged.extend(arr1[i:]); merged.extend(arr2[j:])
```
The cursor loop is embedded as the equivalent structural recursion on the
two lists: exhausting one operand appends the remainder of the other.
-/

def mergeInner (x : Int) (xs : List Int) (mergeRest : List Int → List Int) :
    List Int → List Int
  | [] => x :: xs
  | y :: ys =>
    if x < y then x :: mergeRest (y :: ys)
    else y :: mergeInner x xs mergeRest ys

def merge_sorted_arrays : List Int → List Int → List Int
  | [], arr2 => arr2
  | x :: xs, arr2 => mergeInner x xs (merge_sorted_arrays xs) arr2

theorem merge_nil_left (b : List Int) : merge_sorted_arrays [] b = b := rfl

theorem merge_nil_right (a : List Int) : merge_sorted_arrays a [] = a := by
  cases a <;> rfl

theorem merge_cons_cons (x y : Int) (xs ys : List Int) :
    merge_sorted_arrays (x :: xs) (y :: ys) =
      if x < y then x :: merge_sorted_arrays xs (y :: ys)
      else y :: merge_sorted_arrays (x :: xs) ys := rfl

theorem merge_perm_append (a b : List Int) :
    List.Perm (merge_sorted_arrays a b) (a ++ b) := by
  induction a generalizing b with
  | nil => simp [merge_nil_left]
  | cons x xs iha =>
    induction b with
    | nil => simp [merge_nil_right]
    | cons y ys ihb =>
      rw [merge_cons_cons]
      by_cases h : x < y
      · rw [if_pos h]
        exact (iha (y :: ys)).cons x
      · rw [if_neg h]
        exact (ihb.cons y).trans List.perm_middle.symm

theorem merge_length (a b : List Int) :
    (merge_sorted_arrays a b).length = a.length + b.length := by
  have h := (merge_perm_append a b).length_eq
  simpa using h

theorem merge_mem (u : Int) (a b : List Int) :
    u ∈ merge_sorted_arrays a b ↔ u ∈ a ∨ u ∈ b := by
  rw [(merge_perm_append a b).mem_iff]
  exact List.mem_append

theorem merge_pairwise_le :
    ∀ a b : List Int, a.Pairwise (· ≤ ·) → b.Pairwise (· ≤ ·) →
      (merge_sorted_arrays a b).Pairwise (· ≤ ·) := by
  intro a
  induction a with
  | nil => intro b _ hb; rw [merge_nil_left]; exact hb
  | cons x xs iha =>
    intro b
    induction b with
    | nil => intro ha _; rw [merge_nil_right]; exact ha
    | cons y ys ihb =>
      intro ha hb
      rw [merge_cons_cons]
      rw [List.pairwise_cons] at ha hb
      by_cases h : x < y
      · rw [if_pos h, List.pairwise_cons]
        refine ⟨?_, iha (y :: ys) ha.2 (List.pairwise_cons.mpr hb)⟩
        intro u hu
        rcases (merge_mem u xs (y :: ys)).mp hu with h1 | h1
        · exact ha.1 u h1
        · rcases List.mem_cons.mp h1 with rfl | h2
          · exact le_of_lt h
          · exact le_trans (le_of_lt h) (hb.1 u h2)
      · rw [if_neg h, List.pairwise_cons]
        have hyx : y ≤ x := le_of_not_lt h
        refine ⟨?_, ihb (List.pairwise_cons.mpr ha) hb.2⟩
        intro u hu
        rcases (merge_mem u (x :: xs) ys).mp hu with h1 | h1
        · rcases List.mem_cons.mp h1 with rfl | h2
          · exact hyx
          · exact le_trans hyx (ha.1 u h2)
        · exact hb.1 u h1

/-- C10: for every pair of input lists, `merge_sorted_arrays a b` is a
permutation of the concatenation `a ++ b`: every element of `a` and of `b`
appears in the output with the same multiplicity and nothing else does. -/
theorem merge_sorted_arrays_perm (a b : List Int) :
    List.Perm (merge_sorted_arrays a b) (a ++ b) :=
  merge_perm_append a b

/-- C5: the output length of `merge_sorted_arrays` is always the sum of the
input lengths, and whenever both inputs are sorted ascending the output is
sorted ascending. -/
theorem merge_sorted_arrays_len_sorted (a b : List Int) :
    (merge_sorted_arrays a b).length = a.length + b.length ∧
      (a.Pairwise (· ≤ ·) → b.Pairwise (· ≤ ·) →
        (merge_sorted_arrays a b).Pairwise (· ≤ ·)) :=
  ⟨merge_length a b, fun ha hb => merge_pairwise_le a b ha hb⟩

/-- C5 witness: concrete instance at `[1,3,5]` and `[2,4,6]`. -/
theorem merge_sorted_arrays_len_sorted_witness :
    (merge_sorted_arrays [1, 3, 5] [2, 4, 6]).length = 3 + 3 ∧
      (merge_sorted_arrays [1, 3, 5] [2, 4, 6]).Pairwise (· ≤ ·) := by
  have h := merge_sorted_arrays_len_sorted [1, 3, 5] [2, 4, 6]
  exact ⟨h.1, h.2 (by decide) (by decide)⟩

/-- C1 counterexample: the claim that equal current elements are resolved by
taking the element from the left operand fails on the code: with
`x = y = 2`, `a' = [0]`, `b' = [3]`, the code produces `[2, 2, 0, 3]` while
the claimed tie rule would produce `2 :: merge [0] [2, 3] = [2, 0, 2, 3]`. -/
theorem merge_tie_left_counterexample :
    merge_sorted_arrays [2, 0] [2, 3] ≠
      2 :: merge_sorted_arrays [0] [2, 3] := by
  decide

/-- C1 amended: whenever the current elements under the two cursors are
equal, `merge_sorted_arrays` appends the element taken from the RIGHT
operand `b` and advances `b`'s cursor (ties favor `b`): merging `x :: a'`
with `y :: b'` when `x = y` yields `y` followed by the merge of `x :: a'`
with `b'`. -/
theorem merge_tie_favors_right (x y : Int) (a' b' : List Int) (h : x = y) :
    merge_sorted_arrays (x :: a') (y :: b') =
      y :: merge_sorted_arrays (x :: a') b' := by
  rw [merge_cons_cons, if_neg]
  subst h
  exact lt_irrefl x

/-- C1 amended witness: concrete instance at `x = y = 2`. -/
theorem merge_tie_favors_right_witness :
    merge_sorted_arrays [2, 0] [2, 3] =
      2 :: merge_sorted_arrays [2, 0] [3] :=
  merge_tie_favors_right 2 2 [0] [3] rfl

/-! ### two_sum_sorted

Python source:
```
left, right = 0, len(arr) - 1
while left < right:
    current_sum = arr[left] + arr[right]
    if current_sum == target: return arr[left], arr[right]
    elif current_sum < target: left += 1
    else: right -= 1
return None
```
The loop is embedded structurally on the gap `right - left`; the cursor
`right` is recovered as `left + gap`, so `gap = 0` is exactly the exit
condition `left >= right`.
-/

def twoSumGap (arr : List Int) (target : Int) : Nat → Nat → Option (Int × Int)
  | 0, _ => none
  | gap + 1, left =>
    let right := left + gap + 1
    if arr.getD left 0 + arr.getD right 0 = target then
      some (arr.getD left 0, arr.getD right 0)
    else if arr.getD left 0 + arr.getD right 0 < target then
      twoSumGap arr target gap (left + 1)
    else
      twoSumGap arr target gap left

def two_sum_sorted (arr : List Int) (target : Int) : Option (Int × Int) :=
  twoSumGap arr target (arr.length - 1) 0

/-- A returned pair consists of the values at two distinct indices of the
array and sums to the target. -/
def isValidPair (arr : List Int) (target : Int) (p : Int × Int) : Prop :=
  ∃ i j, i < j ∧ j < arr.length ∧
    arr.getD i 0 = p.1 ∧ arr.getD j 0 = p.2 ∧ p.1 + p.2 = target

theorem sorted_getD_mono {arr : List Int} (hs : arr.Pairwise (· ≤ ·))
    {i j : Nat} (hij : i ≤ j) (hj : j < arr.length) :
    arr.getD i 0 ≤ arr.getD j 0 := by
  rcases Nat.eq_or_lt_of_le hij with rfl | hlt
  · exact le_refl _
  · have hi : i < arr.length := lt_trans hlt hj
    rw [List.getD_eq_getElem _ _ hi, List.getD_eq_getElem _ _ hj]
    exact List.pairwise_iff_getElem.mp hs i j hi hj hlt

theorem twoSumGap_sound (arr : List Int) (target : Int) :
    ∀ gap left p, left + gap < arr.length →
      twoSumGap arr target gap left = some p → isValidPair arr target p := by
  intro gap
  induction gap with
  | zero => intro left p _ h; exact absurd h (by simp [twoSumGap])
  | succ gap ih =>
    intro left p hlen h
    rw [twoSumGap] at h
    by_cases heq : arr.getD left 0 + arr.getD (left + gap + 1) 0 = target
    · rw [if_pos heq] at h
      refine ⟨left, left + gap + 1, by omega, by omega, ?_⟩
      simp only [Option.some_inj] at h
      subst h
      exact ⟨rfl, rfl, heq⟩
    · rw [if_neg heq] at h
      by_cases hlt : arr.getD left 0 + arr.getD (left + gap + 1) 0 < target
      · rw [if_pos hlt] at h
        exact ih (left + 1) p (by omega) h
      · rw [if_neg hlt] at h
        exact ih left p (by omega) h

theorem twoSumGap_complete (arr : List Int) (target : Int)
    (hs : arr.Pairwise (· ≤ ·)) :
    ∀ gap left i j, left ≤ i → i < j → j ≤ left + gap →
      left + gap < arr.length → arr.getD i 0 + arr.getD j 0 = target →
      ∃ p, twoSumGap arr target gap left = some p ∧ isValidPair arr target p := by
  intro gap
  induction gap with
  | zero => intro left i j h1 h2 h3 _ _; omega
  | succ gap ih =>
    intro left i j h1 h2 h3 hlen hsum
    rw [twoSumGap]
    by_cases heq : arr.getD left 0 + arr.getD (left + gap + 1) 0 = target
    · rw [if_pos heq]
      exact ⟨_, rfl, left, left + gap + 1, by omega, by omega, rfl, rfl, heq⟩
    · rw [if_neg heq]
      by_cases hlt : arr.getD left 0 + arr.getD (left + gap + 1) 0 < target
      · rw [if_pos hlt]
        have hi : left < i := by
          rcases Nat.eq_or_lt_of_le h1 with rfl | h
          · exfalso
            have hjr : arr.getD j 0 ≤ arr.getD (left + gap + 1) 0 :=
              sorted_getD_mono hs (by omega) hlen
            omega
          · exact h
        exact ih (left + 1) i j (by omega) h2 (by omega) (by omega) hsum
      · rw [if_neg hlt]
        have hgt : target < arr.getD left 0 + arr.getD (left + gap + 1) 0 := by
          omega
        have hj : j < left + gap + 1 := by
          by_contra hge
          have hjeq : j = left + gap + 1 := by omega
          rw [hjeq] at hsum
          have hli : arr.getD left 0 ≤ arr.getD i 0 :=
            sorted_getD_mono hs (by omega) (by omega)
          omega
        exact ih left i j h1 h2 (by omega) (by omega) hsum

/-- C4: on a sorted ascending list, if two distinct indices sum to the
target then `two_sum_sorted` returns some pair of values taken at two
distinct indices summing to the target, and if no such pair of indices
exists it returns `none`. -/
theorem two_sum_sorted_correct (arr : List Int) (target : Int)
    (hs : arr.Pairwise (· ≤ ·)) :
    ((∃ i j, i < j ∧ j < arr.length ∧
        arr.getD i 0 + arr.getD j 0 = target) →
      ∃ p, two_sum_sorted arr target = some p ∧ isValidPair arr target p) ∧
    ((¬ ∃ i j, i < j ∧ j < arr.length ∧
        arr.getD i 0 + arr.getD j 0 = target) →
      two_sum_sorted arr target = none) := by
  constructor
  · rintro ⟨i, j, hij, hj, hsum⟩
    exact twoSumGap_complete arr target hs (arr.length - 1) 0 i j (by omega)
      hij (by omega) (by omega) hsum
  · intro hno
    rcases hres : two_sum_sorted arr target with _ | p
    · rfl
    · exfalso
      rcases Nat.eq_zero_or_pos arr.length with h0 | hpos
      · rw [two_sum_sorted, h0] at hres
        exact absurd hres (by simp [twoSumGap])
      · rcases twoSumGap_sound arr target (arr.length - 1) 0 p (by omega) hres
          with ⟨i, j, hij, hj, hi', hj', hsum⟩
        exact hno ⟨i, j, hij, hj, by rw [hi', hj']; exact hsum⟩

/-- C4 witness: on `[1, 2, 3, 4, 6]` with target 6 the pair at indices
1 and 3 sums to the target, so a valid pair is returned. -/
theorem two_sum_sorted_correct_witness :
    ∃ p, two_sum_sorted [1, 2, 3, 4, 6] 6 = some p ∧
      isValidPair [1, 2, 3, 4, 6] 6 p :=
  (two_sum_sorted_correct [1, 2, 3, 4, 6] 6 (by decide)).1
    ⟨1, 3, by decide, by decide, by decide⟩

/-! ### remove_duplicates

Python source:
```
if not arr: return 0
write_index = 1
for i in range(1, len(arr)):
    if arr[i] != arr[i - 1]:
        arr[write_index] = arr[i]
        write_index += 1
return write_index
```
The mutable array is threaded as explicit state `(arr, write_index)`
through a fold over the index range `1 .. len-1`; the function returns the
new length together with the final contents of the array.
-/

def rdStep (st : List Int × Nat) (i : Nat) : List Int × Nat :=
  if st.1.getD i 0 ≠ st.1.getD (i - 1) 0 then
    (st.1.set st.2 (st.1.getD i 0), st.2 + 1)
  else st

def remove_duplicates (arr : List Int) : Nat × List Int :=
  match arr with
  | [] => (0, [])
  | _ :: _ =>
    let st := (List.range' 1 (arr.length - 1)).foldl rdStep (arr, 1)
    (st.2, st.1)

/-- Deduplication of consecutive runs, the reference recursion for the
loop body: each element is kept exactly when it differs from the element
immediately preceding it in the original list. -/
def cdGo : Int → List Int → List Int
  | _, [] => []
  | prev, y :: ys => if y ≠ prev then y :: cdGo y ys else cdGo y ys

def consecDedup : List Int → List Int
  | [] => []
  | x :: xs => x :: cdGo x xs

def lastD : Int → List Int → Int
  | prev, [] => prev
  | _, y :: ys => lastD y ys

theorem cdGo_sublist : ∀ (l : List Int) (prev : Int), List.Sublist (cdGo prev l) l := by
  intro l
  induction l with
  | nil => intro prev; simp [cdGo]
  | cons y ys ih =>
    intro prev
    rw [cdGo]
    by_cases h : y ≠ prev
    · rw [if_pos h]; exact (ih y).cons₂ y
    · rw [if_neg h]; exact (ih y).cons y

theorem consecDedup_sublist (l : List Int) : List.Sublist (consecDedup l) l := by
  cases l with
  | nil => simp [consecDedup]
  | cons x xs => exact (cdGo_sublist xs x).cons₂ x

theorem consecDedup_length_le (l : List Int) :
    (consecDedup l).length ≤ l.length :=
  (consecDedup_sublist l).length_le

theorem lastD_eq_getD : ∀ (l : List Int) (prev : Int), l ≠ [] →
    lastD prev l = l.getD (l.length - 1) 0 := by
  intro l
  induction l with
  | nil => intro prev h; exact absurd rfl h
  | cons y ys ih =>
    intro prev _
    cases ys with
    | nil => rfl
    | cons z zs =>
      have h1 : lastD prev (y :: z :: zs) = lastD y (z :: zs) := rfl
      rw [h1, ih y (by simp)]
      simp [List.getD_cons_succ]

theorem cdGo_concat : ∀ (l : List Int) (prev x : Int),
    cdGo prev (l ++ [x]) =
      cdGo prev l ++ (if x ≠ lastD prev l then [x] else []) := by
  intro l
  induction l with
  | nil => intro prev x; simp [cdGo, lastD]
  | cons y ys ih =>
    intro prev x
    rw [List.cons_append, cdGo, cdGo, ih y]
    by_cases h : y ≠ prev
    · rw [if_pos h, if_pos h, List.cons_append]
      rfl
    · rw [if_neg h, if_neg h]
      rfl

theorem consecDedup_concat (l : List Int) (x : Int) (h : l ≠ []) :
    consecDedup (l ++ [x]) =
      consecDedup l ++ (if x ≠ l.getD (l.length - 1) 0 then [x] else []) := by
  cases l with
  | nil => exact absurd rfl h
  | cons a t =>
    rw [List.cons_append, consecDedup, cdGo_concat t a x, consecDedup]
    rw [show lastD a t = lastD a (a :: t) from rfl, lastD_eq_getD (a :: t) a (by simp)]
    rfl

theorem getD_eq_of_drop_eq {l1 l2 : List Int} {m p : Nat}
    (h : l1.drop m = l2.drop m) (hp : m ≤ p) : l1.getD p 0 = l2.getD p 0 := by
  have hmp : m + (p - m) = p := by omega
  have h1 : l1[p]? = l2[p]? := by
    rw [← hmp, ← List.getElem?_drop, ← List.getElem?_drop, h]
  simp [List.getD_eq_getElem?_getD, h1]

theorem getD_eq_of_take_eq {l1 l2 : List Int} {m p : Nat}
    (h : l1.take m = l2.take m) (hp : p < m) : l1.getD p 0 = l2.getD p 0 := by
  have h1 : l1[p]? = l2[p]? := by
    rw [← List.getElem?_take_of_lt (l := l1) hp, ← List.getElem?_take_of_lt (l := l2) hp, h]
  simp [List.getD_eq_getElem?_getD, h1]

theorem set_take_succ (l : List Int) (m : Nat) (v : Int) (h : m < l.length) :
    (l.set m v).take (m + 1) = l.take m ++ [v] := by
  rw [List.set_eq_take_append_cons_drop, if_pos h, List.take_append_eq_append_take]
  have h1 : (l.take m).length = m := by simp; omega
  rw [List.take_take]
  simp [h1, Nat.min_def]

/-- The loop invariant after the iterations for indices `1 .. k`: the
array keeps its length, the prefix below the write index holds the
consecutive deduplication of the processed slice, and everything from the
write index on is still the original array. -/
def RdInv (arr : List Int) (k : Nat) (st : List Int × Nat) : Prop :=
  st.1.length = arr.length ∧ 1 ≤ st.2 ∧
  st.2 = (consecDedup (arr.take (k + 1))).length ∧
  st.1.take st.2 = consecDedup (arr.take (k + 1)) ∧
  st.1.drop st.2 = arr.drop st.2

theorem take_succ_getD (arr : List Int) (k : Nat) (h : k + 1 < arr.length) :
    arr.take (k + 2) = arr.take (k + 1) ++ [arr.getD (k + 1) 0] := by
  have h1 : arr[k + 1]? = some (arr.getD (k + 1) 0) := by
    rw [List.getElem?_eq_getElem h, List.getD_eq_getElem _ _ h]
  rw [show k + 2 = (k + 1) + 1 from rfl, List.take_succ, h1]
  rfl

theorem consec_take_succ (arr : List Int) (k : Nat) (h : k + 2 ≤ arr.length) :
    consecDedup (arr.take (k + 2)) =
      consecDedup (arr.take (k + 1)) ++
        (if arr.getD (k + 1) 0 ≠ arr.getD k 0 then [arr.getD (k + 1) 0] else []) := by
  have hne : arr.take (k + 1) ≠ [] := by
    have : (arr.take (k + 1)).length = k + 1 := by simp; omega
    intro hnil
    rw [hnil] at this
    simp at this
  have hlast : (arr.take (k + 1)).getD ((arr.take (k + 1)).length - 1) 0 = arr.getD k 0 := by
    have hlen : (arr.take (k + 1)).length = k + 1 := by simp; omega
    rw [hlen]
    simp only [Nat.add_sub_cancel]
    have h1 : (arr.take (k + 1))[k]? = arr[k]? := List.getElem?_take_of_lt (by omega)
    simp [List.getD_eq_getElem?_getD, h1]
  rw [take_succ_getD arr k (by omega), consecDedup_concat _ _ hne, hlast]

theorem rd_fold_inv (arr : List Int) (hne : arr ≠ []) :
    ∀ k, k + 1 ≤ arr.length →
      RdInv arr k ((List.range' 1 k).foldl rdStep (arr, 1)) := by
  intro k
  induction k with
  | zero =>
    intro _
    obtain ⟨a, t, rfl⟩ := List.exists_cons_of_ne_nil hne
    refine ⟨rfl, le_refl 1, ?_, ?_, rfl⟩
    · simp [consecDedup, cdGo]
    · simp [consecDedup, cdGo]
  | succ k ih =>
    intro hk
    have inv := ih (by omega)
    rw [List.range'_1_concat, List.foldl_append, List.foldl_cons, List.foldl_nil]
    rw [show 1 + k = k + 1 from Nat.add_comm 1 k]
    set S := (List.range' 1 k).foldl rdStep (arr, 1) with hS
    obtain ⟨h_len, h_wi1, h_wlen, h_take, h_drop⟩ := inv
    have hwile : S.2 ≤ k + 1 := by
      rw [h_wlen]
      calc (consecDedup (arr.take (k + 1))).length
          ≤ (arr.take (k + 1)).length := consecDedup_length_le _
        _ ≤ k + 1 := by simp
    have hread1 : S.1.getD (k + 1) 0 = arr.getD (k + 1) 0 :=
      getD_eq_of_drop_eq h_drop (by omega)
    have hread0 : S.1.getD k 0 = arr.getD k 0 := by
      rcases Nat.lt_or_ge S.2 (k + 1) with hlt | hge
      · exact getD_eq_of_drop_eq h_drop (by omega)
      · have hw : S.2 = k + 1 := le_antisymm hwile hge
        have hlen_eq : (consecDedup (arr.take (k + 1))).length =
            (arr.take (k + 1)).length := by
          rw [← h_wlen, hw]
          simp
          omega
        have heq : consecDedup (arr.take (k + 1)) = arr.take (k + 1) :=
          (consecDedup_sublist _).eq_of_length hlen_eq
        have htk : S.1.take (k + 1) = arr.take (k + 1) := by
          rw [← hw, h_take, heq, hw]
        exact getD_eq_of_take_eq htk (by omega)
    have hccat := consec_take_succ arr k (by omega)
    rw [rdStep]
    simp only [Nat.add_sub_cancel]
    rw [hread0, hread1]
    by_cases hcond : arr.getD (k + 1) 0 ≠ arr.getD k 0
    · rw [if_pos hcond] at hccat ⊢
      refine ⟨by simp [h_len], by omega, ?_, ?_, ?_⟩
      · rw [hccat]
        simp [← h_wlen]
      · rw [set_take_succ S.1 S.2 _ (by omega), h_take, hccat]
      · rw [List.drop_set_of_lt _ _ (Nat.lt_succ_self _)]
        calc List.drop (S.2 + 1) S.1
            = List.drop 1 (List.drop S.2 S.1) := (List.drop_drop 1 S.2 S.1).symm
          _ = List.drop 1 (List.drop S.2 arr) := by rw [h_drop]
          _ = List.drop (S.2 + 1) arr := List.drop_drop 1 S.2 arr
    · rw [if_neg hcond] at hccat ⊢
      rw [List.append_nil] at hccat
      exact ⟨h_len, h_wi1, by rw [hccat]; exact h_wlen, by rw [hccat]; exact h_take, h_drop⟩

theorem remove_duplicates_fold (arr : List Int) (hne : arr ≠ []) :
    (remove_duplicates arr).1 = (consecDedup arr).length ∧
    (remove_duplicates arr).2.take (remove_duplicates arr).1 = consecDedup arr ∧
    (remove_duplicates arr).2.length = arr.length := by
  have hpos : 1 ≤ arr.length := List.length_pos.mpr hne
  obtain ⟨h_len, _, h_wlen, h_take, _⟩ := rd_fold_inv arr hne (arr.length - 1) (by omega)
  rw [show arr.length - 1 + 1 = arr.length from by omega, List.take_length] at h_wlen h_take
  obtain ⟨a, t, rfl⟩ := List.exists_cons_of_ne_nil hne
  exact ⟨h_wlen, h_take, h_len⟩

theorem cons_cdGo_eq_dedup : ∀ (l : List Int) (prev : Int),
    (prev :: l).Pairwise (· ≤ ·) → prev :: cdGo prev l = (prev :: l).dedup := by
  intro l
  induction l with
  | nil =>
    intro prev _
    rw [cdGo, List.dedup_cons_of_not_mem (by simp), List.dedup_nil]
  | cons y ys ih =>
    intro prev hp
    rw [List.pairwise_cons] at hp
    have hylb : ∀ u ∈ y :: ys, y ≤ u := by
      intro u hu
      rcases List.mem_cons.mp hu with rfl | h2
      · exact le_refl u
      · exact (List.pairwise_cons.mp hp.2).1 u h2
    rw [cdGo]
    by_cases h : y ≠ prev
    · rw [if_pos h, List.dedup_cons_of_not_mem, ih y hp.2]
      intro hmem
      have h1 : y ≤ prev := hylb prev hmem
      have h2 : prev ≤ y := hp.1 y (by simp)
      exact h (le_antisymm h1 h2)
    · rw [if_neg h]
      rw [not_not] at h
      subst h
      rw [List.dedup_cons_of_mem (by simp), ← ih y hp.2]

theorem consecDedup_eq_dedup (l : List Int) (h : l.Pairwise (· ≤ ·)) :
    consecDedup l = l.dedup := by
  cases l with
  | nil => rfl
  | cons x xs => rw [consecDedup, cons_cdGo_eq_dedup xs x h]

/-- C6: on a sorted ascending list, `remove_duplicates` returns the number
of distinct values, the first returned-length elements of the resulting
array are the distinct values in strictly ascending order, the empty list
returns 0, and the array length is never changed. -/
theorem remove_duplicates_correct (arr : List Int) :
    (remove_duplicates arr).2.length = arr.length ∧
    (arr = [] → (remove_duplicates arr).1 = 0) ∧
    (arr.Pairwise (· ≤ ·) →
      (remove_duplicates arr).1 = arr.toFinset.card ∧
      (remove_duplicates arr).2.take (remove_duplicates arr).1 = arr.dedup ∧
      arr.dedup.Pairwise (· < ·)) := by
  by_cases hne : arr = []
  · subst hne
    refine ⟨rfl, fun _ => rfl, fun _ => ⟨rfl, rfl, List.Pairwise.nil⟩⟩
  · have hf := remove_duplicates_fold arr hne
    refine ⟨hf.2.2, fun h => absurd h hne, fun hs => ?_⟩
    have hd := consecDedup_eq_dedup arr hs
    have hle : arr.dedup.Pairwise (· ≤ ·) :=
      List.Pairwise.sublist (List.dedup_sublist arr) hs
    have hnd : arr.dedup.Pairwise (· ≠ ·) := List.nodup_dedup arr
    refine ⟨?_, ?_, ?_⟩
    · rw [hf.1, hd, List.card_toFinset]
    · rw [hf.2.1, hd]
    · exact (hle.and hnd).imp (fun h => lt_of_le_of_ne h.1 h.2)

/-- C6 witness: concrete instance at `[1, 1, 2, 2, 3, 4, 4]`. -/
theorem remove_duplicates_correct_witness :
    (remove_duplicates [1, 1, 2, 2, 3, 4, 4]).2.length = ([1, 1, 2, 2, 3, 4, 4] : List Int).length ∧
    ((remove_duplicates [1, 1, 2, 2, 3, 4, 4]).1 = ([1, 1, 2, 2, 3, 4, 4] : List Int).toFinset.card ∧
      (remove_duplicates [1, 1, 2, 2, 3, 4, 4]).2.take (remove_duplicates [1, 1, 2, 2, 3, 4, 4]).1 =
        ([1, 1, 2, 2, 3, 4, 4] : List Int).dedup ∧
      ([1, 1, 2, 2, 3, 4, 4] : List Int).dedup.Pairwise (· < ·)) := by
  have h := remove_duplicates_correct [1, 1, 2, 2, 3, 4, 4]
  exact ⟨h.1, h.2.2 (by decide)⟩

/-! ### length_of_longest_substring

Python source:
```
char_set = set()
left = 0
max_length = 0
for right in range(len(s)):
    while s[right] in char_set:
        char_set.remove(s[left])
        left += 1
    char_set.add(s[right])
    max_length = max(max_length, right - left + 1)
return max_length
```
The set becomes a `Finset Char`; the inner while loop gets a fuel
parameter instantiated with `len(s)`, which the invariant proof shows is
never exhausted (each iteration advances `left`, which never passes
`right < len(s)`).
-/

def lolsShrink (s : List Char) (c : Char) : Nat → Finset Char × Nat → Finset Char × Nat
  | 0, st => st
  | fuel + 1, (cs, left) =>
    if c ∈ cs then lolsShrink s c fuel (cs.erase (s.getD left ' '), left + 1)
    else (cs, left)

def lolsStep (s : List Char) (st : Finset Char × Nat × Nat) (right : Nat) :
    Finset Char × Nat × Nat :=
  let sh := lolsShrink s (s.getD right ' ') s.length (st.1, st.2.1)
  (insert (s.getD right ' ') sh.1, sh.2, max st.2.2 (right - sh.2 + 1))

def length_of_longest_substring (s : List Char) : Nat :=
  ((List.range s.length).foldl (lolsStep s) (∅, 0, 0)).2.2

/-- The contiguous slice of `s` from index `i` (inclusive) to `j`
(exclusive). -/
def slice (s : List Char) (i j : Nat) : List Char := (s.take j).drop i

theorem slice_length {s : List Char} {i j : Nat} (hj : j ≤ s.length) :
    (slice s i j).length = j - i := by
  simp [slice]
  omega

theorem slice_nil {s : List Char} {i j : Nat} (h : j ≤ i) : slice s i j = [] := by
  apply List.drop_eq_nil_of_le
  simp
  omega

theorem slice_cons {s : List Char} {i j : Nat} (hij : i < j) (hi : i < s.length) :
    slice s i j = s.getD i ' ' :: slice s (i + 1) j := by
  have hlen : i < (s.take j).length := by simp; omega
  rw [slice, List.drop_eq_getElem_cons hlen]
  congr 1
  rw [List.getElem_take, List.getD_eq_getElem _ _ hi]

theorem slice_concat {s : List Char} {i j : Nat} (hij : i ≤ j) (hj : j < s.length) :
    slice s i (j + 1) = slice s i j ++ [s.getD j ' '] := by
  rw [slice, slice, List.take_succ, List.getElem?_eq_getElem hj]
  rw [List.drop_append_of_le_length (by simp; omega)]
  rw [List.getD_eq_getElem _ _ hj]
  rfl

theorem slice_sublist (s : List Char) (i j : Nat) : List.Sublist (slice s i j) s :=
  ((s.take j).drop_sublist i).trans (s.take_sublist j)

theorem erase_toFinset_cons (a : Char) (l : List Char) (h : a ∉ l) :
    (List.toFinset (a :: l)).erase a = l.toFinset := by
  rw [List.toFinset_cons, Finset.erase_insert (by simp [h])]

theorem lolsShrink_spec (s : List Char) (r : Nat) (hr : r < s.length) :
    ∀ fuel left cs, left ≤ r → cs = (slice s left r).toFinset →
      (slice s left r).Nodup → r - left < fuel →
      ∃ left', lolsShrink s (s.getD r ' ') fuel (cs, left) =
          ((slice s left' r).toFinset, left') ∧
        left ≤ left' ∧ left' ≤ r ∧ (slice s left' r).Nodup ∧
        s.getD r ' ' ∉ (slice s left' r).toFinset ∧
        (∀ u, left ≤ u → u < left' → s.getD r ' ' ∈ slice s u r) := by
  intro fuel
  induction fuel with
  | zero => intro left cs _ _ _ h4; omega
  | succ f ihf =>
    intro left cs h1 h2 h3 h4
    rw [lolsShrink]
    by_cases hc : s.getD r ' ' ∈ cs
    · rw [if_pos hc]
      have hlr : left < r := by
        rcases Nat.lt_or_ge left r with h | h
        · exact h
        · exfalso
          rw [h2, slice_nil h] at hc
          simp at hc
      have hcons : slice s left r = s.getD left ' ' :: slice s (left + 1) r :=
        slice_cons hlr (by omega)
      have hnd2 : (slice s (left + 1) r).Nodup ∧
          s.getD left ' ' ∉ slice s (left + 1) r := by
        rw [hcons, List.nodup_cons] at h3
        exact ⟨h3.2, h3.1⟩
      have herase : cs.erase (s.getD left ' ') = (slice s (left + 1) r).toFinset := by
        rw [h2, hcons]
        exact erase_toFinset_cons _ _ hnd2.2
      obtain ⟨left', hrec, hge, hler, hnd', hnmem, hall⟩ :=
        ihf (left + 1) (cs.erase (s.getD left ' ')) (by omega) herase hnd2.1 (by omega)
      refine ⟨left', hrec, by omega, hler, hnd', hnmem, ?_⟩
      intro u hu1 hu2
      rcases Nat.eq_or_lt_of_le hu1 with rfl | hu3
      · rw [h2, List.mem_toFinset] at hc
        exact hc
      · exact hall u (by omega) hu2
    · rw [if_neg hc]
      refine ⟨left, by rw [h2], le_refl _, by omega, h3, by rw [← h2]; exact hc,
        fun u hu1 hu2 => absurd hu2 (by omega)⟩

/-- The sliding-window invariant after processing `right = 0 .. r-1`: the
set holds exactly the characters of the current window, the window has no
repeats, the window start is minimal with that property, and the tracked
maximum is exactly the length of the longest repeat-free slice ending at
or before `r`. -/
def LolsInv (s : List Char) (r : Nat) (st : Finset Char × Nat × Nat) : Prop :=
  st.2.1 ≤ r ∧
  st.1 = (slice s st.2.1 r).toFinset ∧
  (slice s st.2.1 r).Nodup ∧
  (∀ l', l' < st.2.1 → ¬ (slice s l' r).Nodup) ∧
  (∃ i j, i ≤ j ∧ j ≤ r ∧ (slice s i j).Nodup ∧ st.2.2 = j - i) ∧
  (∀ i j, i ≤ j → j ≤ r → (slice s i j).Nodup → j - i ≤ st.2.2)

theorem lols_fold_inv (s : List Char) :
    ∀ r, r ≤ s.length → LolsInv s r ((List.range r).foldl (lolsStep s) (∅, 0, 0)) := by
  intro r
  induction r with
  | zero =>
    intro _
    simp only [List.range_zero, List.foldl_nil]
    refine ⟨le_refl 0, by simp [slice], by simp [slice],
      fun l' h => absurd h (Nat.not_lt_zero l'),
      ⟨0, 0, le_refl 0, le_refl 0, by simp [slice], rfl⟩, ?_⟩
    intro i j hij hj0 _
    omega
  | succ r ihr =>
    intro hr1
    have hr : r < s.length := by omega
    rw [List.range_succ, List.foldl_append, List.foldl_cons, List.foldl_nil]
    obtain ⟨hlr, hcs, hnd, hmin, hach, hub⟩ := ihr (by omega)
    set S := (List.range r).foldl (lolsStep s) (∅, 0, 0) with hS
    obtain ⟨left', hrec, hle, hler, hnd', hnmem, hall⟩ :=
      lolsShrink_spec s r hr s.length S.2.1 S.1 hlr hcs hnd (by omega)
    rw [lolsStep]
    simp only [hrec]
    have hwin : slice s left' (r + 1) = slice s left' r ++ [s.getD r ' '] :=
      slice_concat hler hr
    have hnd1 : (slice s left' (r + 1)).Nodup := by
      rw [hwin, List.nodup_append]
      refine ⟨hnd', List.nodup_singleton _, ?_⟩
      intro a ha hb
      rcases List.mem_singleton.mp hb with rfl
      rw [List.mem_toFinset] at hnmem
      exact hnmem ha
    have hmin1 : ∀ l', l' < left' → ¬ (slice s l' (r + 1)).Nodup := by
      intro l0 hl0 hnod
      have hl0r : l0 ≤ r := by omega
      have hsplit : slice s l0 (r + 1) = slice s l0 r ++ [s.getD r ' '] :=
        slice_concat hl0r hr
      rw [hsplit, List.nodup_append] at hnod
      rcases Nat.lt_or_ge l0 S.2.1 with hcase | hcase
      · exact hmin l0 hcase hnod.1
      · exact hnod.2.2 (hall l0 hcase hl0) (List.mem_singleton_self _)
    refine ⟨?_, ?_, hnd1, hmin1, ?_, ?_⟩
    · show left' ≤ r + 1
      omega
    · show insert (s.getD r ' ') (slice s left' r).toFinset =
        (slice s left' (r + 1)).toFinset
      rw [hwin, List.toFinset_append]
      have h1 : List.toFinset [s.getD r ' '] = {s.getD r ' '} := by simp
      rw [h1, Finset.insert_eq, Finset.union_comm]
    · show ∃ i j, i ≤ j ∧ j ≤ r + 1 ∧ (slice s i j).Nodup ∧
        max S.2.2 (r - left' + 1) = j - i
      rcases le_total S.2.2 (r - left' + 1) with hm | hm
      · refine ⟨left', r + 1, by omega, le_refl _, hnd1, ?_⟩
        rw [max_eq_right hm]
        omega
      · obtain ⟨i, j, hij, hjr, hndij, hmax⟩ := hach
        exact ⟨i, j, hij, by omega, hndij, by rw [max_eq_left hm]; exact hmax⟩
    · show ∀ i j, i ≤ j → j ≤ r + 1 → (slice s i j).Nodup →
        j - i ≤ max S.2.2 (r - left' + 1)
      intro i j hij hjr hndij
      rcases Nat.lt_or_ge j (r + 1) with hcase | hcase
      · exact le_trans (hub i j hij (by omega) hndij) (le_max_left _ _)
      · have hj1 : j = r + 1 := by omega
        subst hj1
        have hige : left' ≤ i := by
          by_contra hlt
          exact hmin1 i (by omega) hndij
        refine le_trans ?_ (le_max_right S.2.2 (r - left' + 1))
        omega

/-- C9: `length_of_longest_substring s` is the length of a longest
contiguous slice of `s` with pairwise distinct characters: some
repeat-free slice achieves it and every repeat-free slice is at most it;
consequently it is at most `s.length` and at most the number of distinct
characters of `s`. -/
theorem length_of_longest_substring_correct (s : List Char) :
    (∃ i j, i ≤ j ∧ j ≤ s.length ∧ (slice s i j).Nodup ∧
      length_of_longest_substring s = j - i) ∧
    (∀ i j, i ≤ j → j ≤ s.length → (slice s i j).Nodup →
      j - i ≤ length_of_longest_substring s) ∧
    length_of_longest_substring s ≤ s.length ∧
    length_of_longest_substring s ≤ s.toFinset.card := by
  obtain ⟨_, _, _, _, hach, hub⟩ := lols_fold_inv s s.length (le_refl _)
  have hdef : length_of_longest_substring s =
      ((List.range s.length).foldl (lolsStep s) (∅, 0, 0)).2.2 := rfl
  refine ⟨hach, hub, ?_, ?_⟩
  · obtain ⟨i, j, hij, hjr, _, hmax⟩ := hach
    rw [hdef]
    omega
  · obtain ⟨i, j, hij, hjr, hndij, hmax⟩ := hach
    have h1 : (slice s i j).toFinset.card = (slice s i j).length :=
      List.toFinset_card_of_nodup hndij
    have h2 : (slice s i j).toFinset ⊆ s.toFinset := by
      intro a ha
      rw [List.mem_toFinset] at ha ⊢
      exact (slice_sublist s i j).subset ha
    have h3 := Finset.card_le_card h2
    rw [h1, slice_length hjr] at h3
    rw [hdef]
    omega

/-- C9 witness: on `"pwwkew"` the slice `kew` (indices 3 to 6) is
repeat-free, so 3 is a lower bound, and the computed answer is 3. -/
theorem length_of_longest_substring_correct_witness :
    6 - 3 ≤ length_of_longest_substring ['p', 'w', 'w', 'k', 'e', 'w'] ∧
    length_of_longest_substring ['p', 'w', 'w', 'k', 'e', 'w'] = 3 :=
  ⟨(length_of_longest_substring_correct ['p', 'w', 'w', 'k', 'e', 'w']).2.1 3 6
      (by decide) (by decide) (by decide),
    by decide⟩

/-! ### Singly-linked structures

A finite heap of `n` nodes is a successor map `next : Fin n → Option (Fin n)`
(`none` is Python's absent `.next`); a list is an optional head node.
`reachFrom next o t` follows `t` links from the optional node `o`, with
`none` propagating, so `reach next head t` is the node `t` links from the
head (Python's `head.next.next...`). Loops get one unit of fuel per
iteration; a result of `none` means the fuel ran out before the loop
exited, so termination of a loop is the existence of a fuel on which the
run produces `some` result.
-/

def reachFrom {n : Nat} (next : Fin n → Option (Fin n)) (o : Option (Fin n)) :
    Nat → Option (Fin n)
  | 0 => o
  | t + 1 => (reachFrom next o t).bind next

def reach {n : Nat} (next : Fin n → Option (Fin n)) (head : Option (Fin n))
    (t : Nat) : Option (Fin n) :=
  reachFrom next head t

/-- The node `x` lies on a cycle of the `next` relation: following some
positive number of links from `x` returns to `x`. -/
def onCycle {n : Nat} (next : Fin n → Option (Fin n)) (x : Fin n) : Prop :=
  ∃ k, 0 < k ∧ reachFrom next (some x) k = some x

/-- Some node reachable from the head lies on a cycle. -/
def cycleReachable {n : Nat} (next : Fin n → Option (Fin n))
    (head : Option (Fin n)) : Prop :=
  ∃ x, (∃ t, reach next head t = some x) ∧ onCycle next x

/-! Python `has_cycle`:
```
slow, fast = head, head
while fast and fast.next:
    slow = slow.next
    fast = fast.next.next
    if slow == fast: return True
return False
```
The guard `fast and fast.next` holds exactly when `fast.bind next` is
`some` (`bind` propagates absence through both links), and then
`fast.next.next` is `next f1` where `fast.bind next = some f1`. -/

def hasCycleFuel {n : Nat} (next : Fin n → Option (Fin n)) :
    Nat → Option (Fin n) → Option (Fin n) → Option Bool
  | 0, _, _ => none
  | fuel + 1, slow, fast =>
    match fast.bind next with
    | some f1 =>
      let slow' := slow.bind next
      let fast' := next f1
      if slow' = fast' then some true
      else hasCycleFuel next fuel slow' fast'
    | none => some false

/-! Python `find_middle`:
```
slow, fast = head, head
while fast and fast.next:
    slow = slow.next
    fast = fast.next.next
return slow
```
-/

def findMiddleFuel {n : Nat} (next : Fin n → Option (Fin n)) :
    Nat → Option (Fin n) → Option (Fin n) → Option (Option (Fin n))
  | 0, _, _ => none
  | fuel + 1, slow, fast =>
    match fast.bind next with
    | some f1 => findMiddleFuel next fuel (slow.bind next) (next f1)
    | none => some slow

/-! Python `detect_cycle_start`:
```
slow, fast = head, head
while fast and fast.next:
    slow = slow.next
    fast = fast.next.next
    if slow == fast: break
else:
    return None
start = head
while start != slow:
    start = start.next
    slow = slow.next
return start
```
-/

def detectPhase2Fuel {n : Nat} (next : Fin n → Option (Fin n)) :
    Nat → Option (Fin n) → Option (Fin n) → Option (Option (Fin n))
  | 0, _, _ => none
  | fuel + 1, start, slw =>
    if start = slw then some start
    else detectPhase2Fuel next fuel (start.bind next) (slw.bind next)

def detectCycleStartFuel {n : Nat} (next : Fin n → Option (Fin n))
    (head : Option (Fin n)) :
    Nat → Option (Fin n) → Option (Fin n) → Option (Option (Fin n))
  | 0, _, _ => none
  | fuel + 1, slow, fast =>
    match fast.bind next with
    | some f1 =>
      let slow' := slow.bind next
      let fast' := next f1
      if slow' = fast' then detectPhase2Fuel next fuel head slow'
      else detectCycleStartFuel next head fuel slow' fast'
    | none => some none

/-! Basic facts about `reach`. -/

theorem reachFrom_none {n : Nat} (next : Fin n → Option (Fin n)) :
    ∀ t, reachFrom next none t = none := by
  intro t
  induction t with
  | zero => rfl
  | succ t ih => rw [reachFrom, ih]; rfl

theorem reachFrom_add {n : Nat} (next : Fin n → Option (Fin n))
    (o : Option (Fin n)) (a : Nat) :
    ∀ b, reachFrom next o (a + b) = reachFrom next (reachFrom next o a) b := by
  intro b
  induction b with
  | zero => rfl
  | succ b ih => rw [← Nat.add_assoc, reachFrom, ih, reachFrom]

theorem reach_congr {n : Nat} (next : Fin n → Option (Fin n))
    (head : Option (Fin n)) {a b : Nat} (h : a = b) :
    reach next head a = reach next head b := by rw [h]

theorem reach_none_mono {n : Nat} (next : Fin n → Option (Fin n))
    (head : Option (Fin n)) {t u : Nat} (h : reach next head t = none)
    (htu : t ≤ u) : reach next head u = none := by
  have h1 : u = t + (u - t) := by omega
  rw [h1, reach, reachFrom_add]
  rw [reach] at h
  rw [h, reachFrom_none]

theorem reach_isSome_of_le {n : Nat} (next : Fin n → Option (Fin n))
    (head : Option (Fin n)) {t u : Nat} (h : (reach next head u).isSome)
    (htu : t ≤ u) : (reach next head t).isSome := by
  rcases ho : reach next head t with _ | x
  · rw [reach_none_mono next head ho htu] at h
    simp at h
  · rfl

/-- A node visited at two different times lies on a cycle, so a cycle is
reachable. -/
theorem cycleReachable_of_repeat {n : Nat} (next : Fin n → Option (Fin n))
    (head : Option (Fin n)) {i j : Nat} {x : Fin n}
    (hi : reach next head i = some x) (hj : reach next head j = some x)
    (hij : i < j) : cycleReachable next head := by
  refine ⟨x, ⟨i, hi⟩, j - i, by omega, ?_⟩
  have hi' : reachFrom next head i = some x := hi
  have h1 : reach next head (i + (j - i)) = reachFrom next (some x) (j - i) := by
    rw [reach, reachFrom_add, hi']
  rw [← h1, reach_congr next head (show i + (j - i) = j by omega), hj]

/-- If a cycle is reachable, following links from the head never falls off
the end. -/
theorem reach_total_of_cycleReachable {n : Nat} (next : Fin n → Option (Fin n))
    (head : Option (Fin n)) (hc : cycleReachable next head) :
    ∀ t, (reach next head t).isSome := by
  obtain ⟨x, ⟨t0, ht0⟩, k, hk, hkx⟩ := hc
  have hrep : ∀ m, reach next head (t0 + m * k) = some x := by
    intro m
    induction m with
    | zero => simpa using ht0
    | succ m ih =>
      have h1 : t0 + (m + 1) * k = t0 + m * k + k := by ring
      have ih' : reachFrom next head (t0 + m * k) = some x := ih
      rw [reach_congr next head h1, reach, reachFrom_add, ih', hkx]
  intro t
  have h2 : t ≤ t0 + t * k := by
    calc t ≤ t * k := Nat.le_mul_of_pos_right t hk
    _ ≤ t0 + t * k := by omega
  exact reach_isSome_of_le next head (by rw [hrep t]; rfl) h2

/-- Pigeonhole: if the walk from the head survives `n` steps on an
`n`-node heap, it visits some node twice within the first `n` steps. -/
theorem repeat_of_total {n : Nat} (next : Fin n → Option (Fin n))
    (head : Option (Fin n)) (htot : ∀ t, t ≤ n → (reach next head t).isSome) :
    ∃ i j x, i < j ∧ j ≤ n ∧ reach next head i = some x ∧
      reach next head j = some x := by
  have hf : ∀ t : Fin (n + 1), ∃ x, reach next head t.1 = some x := by
    intro t
    rcases ho : reach next head t.1 with _ | x
    · exfalso
      have := htot t.1 (by omega)
      rw [ho] at this
      simp at this
    · exact ⟨x, rfl⟩
  choose f hfspec using hf
  obtain ⟨i, j, hne, hfeq⟩ :=
    Fintype.exists_ne_map_eq_of_card_lt f (by simp)
  rcases Nat.lt_or_ge i.1 j.1 with hlt | hge
  · exact ⟨i.1, j.1, f i, hlt, by omega, hfspec i, by rw [hfspec j, hfeq]⟩
  · have hlt : j.1 < i.1 := by
      rcases Nat.lt_or_ge j.1 i.1 with h | h
      · exact h
      · exact absurd (Fin.ext (by omega)) hne
    exact ⟨j.1, i.1, f i, hlt, by omega, by rw [hfspec j, hfeq], hfspec i⟩

theorem cycleReachable_of_total {n : Nat} (next : Fin n → Option (Fin n))
    (head : Option (Fin n)) (htot : ∀ t, t ≤ n → (reach next head t).isSome) :
    cycleReachable next head := by
  obtain ⟨i, j, x, hij, _, hi, hj⟩ := repeat_of_total next head htot
  exact cycleReachable_of_repeat next head hi hj hij

theorem not_cycleReachable_iff_none {n : Nat} (next : Fin n → Option (Fin n))
    (head : Option (Fin n)) :
    (¬ cycleReachable next head) ↔ ∃ m, reach next head m = none := by
  constructor
  · intro hnc
    by_contra hno
    push_neg at hno
    refine hnc (cycleReachable_of_total next head ?_)
    intro t _
    rcases ho : reach next head t with _ | x
    · exact absurd ho (hno t)
    · rfl
  · rintro ⟨m, hm⟩ hc
    have := reach_total_of_cycleReachable next head hc m
    rw [hm] at this
    simp at this

/-- One revisit gives a period valid from that time on. -/
theorem reach_periodic {n : Nat} (next : Fin n → Option (Fin n))
    (head : Option (Fin n)) {a p : Nat}
    (h : reach next head (a + p) = reach next head a) :
    ∀ t, a ≤ t → reach next head (t + p) = reach next head t := by
  intro t hat
  have h1 : t + p = (a + p) + (t - a) := by omega
  have h2 : t = a + (t - a) := by omega
  have h' : reachFrom next head (a + p) = reachFrom next head a := h
  rw [reach_congr next head h1, reach, reachFrom_add, h', ← reachFrom_add]
  exact (reach_congr next head h2).symm

theorem reach_periodic_mul {n : Nat} (next : Fin n → Option (Fin n))
    (head : Option (Fin n)) {a p : Nat}
    (h : reach next head (a + p) = reach next head a) :
    ∀ m t, a ≤ t → reach next head (t + m * p) = reach next head t := by
  intro m
  induction m with
  | zero => intro t _; simp
  | succ m ih =>
    intro t hat
    have h1 : t + (m + 1) * p = (t + m * p) + p := by ring
    rw [reach_congr next head h1,
      reach_periodic next head h (t + m * p) (by omega), ih t hat]

/-! Unfolding and single-step lemmas for `hasCycleFuel`.  After `t` loop
iterations the slow cursor sits at `reach t` and the fast cursor at
`reach (2*t)`, so one iteration from `(reach a, reach (2*a))` compares
`reach (a+1)` with `reach (2*(a+1))`. -/

theorem hasCycleFuel_succ {n : Nat} (next : Fin n → Option (Fin n))
    (fuel : Nat) (slow fast : Option (Fin n)) :
    hasCycleFuel next (fuel + 1) slow fast =
      match fast.bind next with
      | some f1 =>
        if slow.bind next = next f1 then some true
        else hasCycleFuel next fuel (slow.bind next) (next f1)
      | none => some false := by
  rw [hasCycleFuel]

theorem hasCycleFuel_step {n : Nat} (next : Fin n → Option (Fin n))
    (head : Option (Fin n)) (fuel a : Nat) (f1 : Fin n)
    (hf1 : reach next head (2 * a + 1) = some f1) :
    hasCycleFuel next (fuel + 1) (reach next head a) (reach next head (2 * a)) =
      if reach next head (a + 1) = reach next head (2 * (a + 1)) then some true
      else hasCycleFuel next fuel (reach next head (a + 1))
        (reach next head (2 * (a + 1))) := by
  rw [hasCycleFuel_succ]
  have hb : (reach next head (2 * a)).bind next = some f1 := hf1
  rw [hb]
  have hn : next f1 = reach next head (2 * (a + 1)) := by
    have h2 : (reach next head (2 * a + 1)).bind next =
        reach next head (2 * a + 1 + 1) := rfl
    rw [reach_congr next head (show 2 * (a + 1) = 2 * a + 1 + 1 by ring), ← h2, hf1]
    rfl
  show (if (reach next head a).bind next = next f1 then some true
    else hasCycleFuel next fuel ((reach next head a).bind next) (next f1)) = _
  rw [hn]
  rfl

theorem hasCycleFuel_exit {n : Nat} (next : Fin n → Option (Fin n))
    (head : Option (Fin n)) (fuel a : Nat)
    (h : reach next head (2 * a + 1) = none) :
    hasCycleFuel next (fuel + 1) (reach next head a) (reach next head (2 * a)) =
      some false := by
  rw [hasCycleFuel_succ]
  have hb : (reach next head (2 * a)).bind next = none := h
  rw [hb]

/-- If the cursors are on the path and some later time `t` satisfies the
meeting equation `reach t = reach (2*t)`, the loop returns `true` once it
has fuel to get there. -/
theorem hasCycleFuel_meets {n : Nat} (next : Fin n → Option (Fin n))
    (head : Option (Fin n)) (htot : ∀ t, (reach next head t).isSome) :
    ∀ fuel a, (∃ t, a < t ∧ t ≤ a + fuel ∧
        reach next head t = reach next head (2 * t)) →
      hasCycleFuel next fuel (reach next head a) (reach next head (2 * a)) =
        some true := by
  intro fuel
  induction fuel with
  | zero => rintro a ⟨t, h1, h2, _⟩; omega
  | succ fuel ih =>
    rintro a ⟨t, h1, h2, h3⟩
    obtain ⟨f1, hf1⟩ := Option.isSome_iff_exists.mp (htot (2 * a + 1))
    rw [hasCycleFuel_step next head fuel a f1 hf1]
    by_cases hm : reach next head (a + 1) = reach next head (2 * (a + 1))
    · rw [if_pos hm]
    · rw [if_neg hm]
      refine ih (a + 1) ⟨t, ?_, by omega, h3⟩
      rcases Nat.eq_or_lt_of_le (show a + 1 ≤ t by omega) with heq | h
      · exact absurd (heq ▸ h3) hm
      · exact h

/-- If the walk falls off the end at time `m`, the loop returns `false`
given enough fuel. -/
theorem hasCycleFuel_no_cycle {n : Nat} (next : Fin n → Option (Fin n))
    (head : Option (Fin n)) {m : Nat} (hm : reach next head m = none) :
    ∀ fuel a, 1 ≤ fuel → m ≤ 2 * a + 2 * fuel - 1 →
      hasCycleFuel next fuel (reach next head a) (reach next head (2 * a)) =
        some false := by
  have hnc : ¬ cycleReachable next head :=
    (not_cycleReachable_iff_none next head).mpr ⟨m, hm⟩
  intro fuel
  induction fuel with
  | zero => intro a h1 _; omega
  | succ fuel ih =>
    intro a _ h2
    rcases ho : reach next head (2 * a + 1) with _ | f1
    · exact hasCycleFuel_exit next head fuel a ho
    · rw [hasCycleFuel_step next head fuel a f1 ho]
      have hne : reach next head (a + 1) ≠ reach next head (2 * (a + 1)) := by
        intro heq
        rcases hv : reach next head (a + 1) with _ | x
        · have hmono := reach_none_mono next head hv (show a + 1 ≤ 2 * a + 1 by omega)
          rw [hmono] at ho
          exact Option.noConfusion ho
        · have hv2 : reach next head (2 * (a + 1)) = some x := by rw [← heq, hv]
          exact hnc (cycleReachable_of_repeat next head hv hv2 (by omega))
      rw [if_neg hne]
      have hm2 : 2 * a + 2 ≤ m := by
        by_contra hcon
        have hmono := reach_none_mono next head hm (show m ≤ 2 * a + 1 by omega)
        rw [hmono] at ho
        exact Option.noConfusion ho
      exact ih (a + 1) (by omega) (by omega)

theorem hasCycleFuel_true_sound {n : Nat} (next : Fin n → Option (Fin n))
    (head : Option (Fin n)) :
    ∀ fuel a, hasCycleFuel next fuel (reach next head a)
        (reach next head (2 * a)) = some true →
      cycleReachable next head := by
  intro fuel
  induction fuel with
  | zero => intro a h; exact Option.noConfusion h
  | succ fuel ih =>
    intro a h
    rcases ho : reach next head (2 * a + 1) with _ | f1
    · rw [hasCycleFuel_exit next head fuel a ho] at h
      simp at h
    · rw [hasCycleFuel_step next head fuel a f1 ho] at h
      by_cases hm : reach next head (a + 1) = reach next head (2 * (a + 1))
      · rcases hv : reach next head (a + 1) with _ | x
        · have hmono := reach_none_mono next head hv (show a + 1 ≤ 2 * a + 1 by omega)
          rw [hmono] at ho
          exact Option.noConfusion ho
        · have hv2 : reach next head (2 * (a + 1)) = some x := by rw [← hm, hv]
          exact cycleReachable_of_repeat next head hv hv2 (by omega)
      · rw [if_neg hm] at h
        exact ih (a + 1) h

theorem hasCycleFuel_false_sound {n : Nat} (next : Fin n → Option (Fin n))
    (head : Option (Fin n)) :
    ∀ fuel a, hasCycleFuel next fuel (reach next head a)
        (reach next head (2 * a)) = some false →
      ∃ u, reach next head u = none := by
  intro fuel
  induction fuel with
  | zero => intro a h; exact Option.noConfusion h
  | succ fuel ih =>
    intro a h
    rcases ho : reach next head (2 * a + 1) with _ | f1
    · exact ⟨2 * a + 1, ho⟩
    · rw [hasCycleFuel_step next head fuel a f1 ho] at h
      by_cases hm : reach next head (a + 1) = reach next head (2 * (a + 1))
      · rw [if_pos hm] at h
        simp at h
      · rw [if_neg hm] at h
        exact ih (a + 1) h

/-- A one-node self-loop, used as a concrete cyclic structure. -/
def cyc1next : Fin 1 → Option (Fin 1) := fun _ => some 0

/-- When a cycle is reachable, some positive time satisfies the Floyd
meeting equation. -/
theorem exists_meet {n : Nat} (next : Fin n → Option (Fin n))
    (head : Option (Fin n)) (hc : cycleReachable next head) :
    ∃ t, 1 ≤ t ∧ reach next head t = reach next head (2 * t) := by
  have htot := reach_total_of_cycleReachable next head hc
  obtain ⟨i, j, x, hij, hjn, hi, hj⟩ :=
    repeat_of_total next head (fun t _ => htot t)
  have hper : reach next head (i + (j - i)) = reach next head i := by
    rw [reach_congr next head (show i + (j - i) = j by omega), hj, hi]
  have hp1 : 1 ≤ j - i := by omega
  have ht1 : 1 ≤ (j - i) * (i + 1) :=
    Nat.one_le_iff_ne_zero.mpr (by positivity)
  have hti : i ≤ (j - i) * (i + 1) := by
    calc i ≤ 1 * (i + 1) := by omega
      _ ≤ (j - i) * (i + 1) := Nat.mul_le_mul_right _ hp1
  have hmeet : reach next head ((j - i) * (i + 1)) =
      reach next head (2 * ((j - i) * (i + 1))) := by
    have harith : 2 * ((j - i) * (i + 1)) =
        (j - i) * (i + 1) + (i + 1) * (j - i) := by ring
    rw [reach_congr next head harith,
      reach_periodic_mul next head hper (i + 1) _ hti]
  exact ⟨(j - i) * (i + 1), ht1, hmeet⟩

/-- Termination of the `has_cycle` loop on every finite structure. -/
theorem hasCycle_terminates {n : Nat} (next : Fin n → Option (Fin n))
    (head : Option (Fin n)) :
    ∃ fuel b, hasCycleFuel next fuel head head = some b := by
  by_cases hc : cycleReachable next head
  · have htot := reach_total_of_cycleReachable next head hc
    obtain ⟨t, ht1, hmeet⟩ := exists_meet next head hc
    exact ⟨t, true,
      hasCycleFuel_meets next head htot t 0 ⟨t, by omega, by omega, hmeet⟩⟩
  · obtain ⟨m, hm⟩ := (not_cycleReachable_iff_none next head).mp hc
    exact ⟨m + 1, false,
      hasCycleFuel_no_cycle next head hm (m + 1) 0 (by omega) (by omega)⟩

/-- C7: the `has_cycle` loop terminates on every finite structure, its
answer is `true` exactly when some node reachable from the head lies on a
cycle of the next relation, and for an absent head one check of the loop
condition (no link traversed) returns `false`. -/
theorem has_cycle_correct {n : Nat} (next : Fin n → Option (Fin n))
    (head : Option (Fin n)) :
    (∃ fuel b, hasCycleFuel next fuel head head = some b) ∧
    (∀ fuel b, hasCycleFuel next fuel head head = some b →
      (b = true ↔ cycleReachable next head)) ∧
    (head = none → hasCycleFuel next 1 head head = some false) := by
  refine ⟨hasCycle_terminates next head, ?_, ?_⟩
  · intro fuel b h
    have h0 : hasCycleFuel next fuel (reach next head 0)
        (reach next head (2 * 0)) = some b := h
    constructor
    · rintro rfl
      exact hasCycleFuel_true_sound next head fuel 0 h0
    · intro hc
      cases b with
      | false =>
        exfalso
        obtain ⟨u, hu⟩ := hasCycleFuel_false_sound next head fuel 0 h0
        have htot := reach_total_of_cycleReachable next head hc u
        rw [hu] at htot
        simp at htot
      | true => rfl
  · rintro rfl
    rfl

/-- C7 witness: on the one-node self-loop the loop returns `true` and a
cycle is indeed reachable. -/
theorem has_cycle_correct_witness : cycleReachable cyc1next (some 0) :=
  (((has_cycle_correct cyc1next (some 0)).2.1 1 true rfl)).mp rfl

/-! Lemmas for `findMiddleFuel`.  The hypotheses `hL`/`hnone` say the list
from the head is a finite acyclic chain of exactly `L` nodes: every index
below `L` is a node and index `L` falls off the end. -/

theorem findMiddleFuel_succ {n : Nat} (next : Fin n → Option (Fin n))
    (fuel : Nat) (slow fast : Option (Fin n)) :
    findMiddleFuel next (fuel + 1) slow fast =
      match fast.bind next with
      | some f1 => findMiddleFuel next fuel (slow.bind next) (next f1)
      | none => some slow := by
  rw [findMiddleFuel]

theorem findMiddleFuel_step {n : Nat} (next : Fin n → Option (Fin n))
    (head : Option (Fin n)) (fuel a : Nat) (f1 : Fin n)
    (hf1 : reach next head (2 * a + 1) = some f1) :
    findMiddleFuel next (fuel + 1) (reach next head a) (reach next head (2 * a)) =
      findMiddleFuel next fuel (reach next head (a + 1))
        (reach next head (2 * (a + 1))) := by
  rw [findMiddleFuel_succ]
  have hb : (reach next head (2 * a)).bind next = some f1 := hf1
  rw [hb]
  have hn : next f1 = reach next head (2 * (a + 1)) := by
    have h2 : (reach next head (2 * a + 1)).bind next =
        reach next head (2 * a + 1 + 1) := rfl
    rw [reach_congr next head (show 2 * (a + 1) = 2 * a + 1 + 1 by ring), ← h2, hf1]
    rfl
  show findMiddleFuel next fuel ((reach next head a).bind next) (next f1) = _
  rw [hn]
  rfl

theorem findMiddleFuel_exit {n : Nat} (next : Fin n → Option (Fin n))
    (head : Option (Fin n)) (fuel a : Nat)
    (h : reach next head (2 * a + 1) = none) :
    findMiddleFuel next (fuel + 1) (reach next head a) (reach next head (2 * a)) =
      some (reach next head a) := by
  rw [findMiddleFuel_succ]
  have hb : (reach next head (2 * a)).bind next = none := h
  rw [hb]

theorem findMiddleFuel_sound {n : Nat} (next : Fin n → Option (Fin n))
    (head : Option (Fin n)) (L : Nat)
    (hL : ∀ t, t < L → (reach next head t).isSome)
    (hnone : reach next head L = none) :
    ∀ fuel s r, s ≤ L / 2 →
      findMiddleFuel next fuel (reach next head s) (reach next head (2 * s)) =
        some r →
      r = reach next head (L / 2) := by
  intro fuel
  induction fuel with
  | zero => intro s r _ h; exact Option.noConfusion h
  | succ fuel ih =>
    intro s r hs h
    rcases ho : reach next head (2 * s + 1) with _ | f1
    · rw [findMiddleFuel_exit next head fuel s ho] at h
      have hsL : L ≤ 2 * s + 1 := by
        by_contra hcon
        push_neg at hcon
        have hsome := hL (2 * s + 1) (by omega)
        rw [ho] at hsome
        simp at hsome
      have hseq : s = L / 2 := by omega
      have hr : reach next head s = r := Option.some.inj h
      rw [← hr, hseq]
    · have h2sL : 2 * s + 1 < L := by
        by_contra hcon
        push_neg at hcon
        rw [reach_none_mono next head hnone (by omega)] at ho
        exact Option.noConfusion ho
      rw [findMiddleFuel_step next head fuel s f1 ho] at h
      exact ih (s + 1) r (by omega) h

theorem findMiddleFuel_total {n : Nat} (next : Fin n → Option (Fin n))
    (head : Option (Fin n)) (L : Nat)
    (hL : ∀ t, t < L → (reach next head t).isSome)
    (hnone : reach next head L = none) :
    ∀ d s, s + d = L / 2 →
      findMiddleFuel next (d + 1) (reach next head s) (reach next head (2 * s)) =
        some (reach next head (L / 2)) := by
  intro d
  induction d with
  | zero =>
    intro s hs
    have hends : reach next head (2 * s + 1) = none :=
      reach_none_mono next head hnone (by omega)
    rw [findMiddleFuel_exit next head 0 s hends,
      show s = L / 2 by omega]
  | succ d ih =>
    intro s hs
    have h2sL : 2 * s + 1 < L := by omega
    obtain ⟨f1, hf1⟩ := Option.isSome_iff_exists.mp (hL (2 * s + 1) h2sL)
    rw [findMiddleFuel_step next head (d + 1) s f1 hf1]
    exact ih (s + 1) (by omega)

/-- C8: on a finite acyclic chain of exactly `L` nodes, the `find_middle`
loop terminates and returns the node at 0-based index `L / 2` (for even
`L` the second of the two middle nodes); that node exists when `L ≥ 1`,
and for an absent head the returned reference is absent. -/
theorem find_middle_correct {n : Nat} (next : Fin n → Option (Fin n))
    (head : Option (Fin n)) (L : Nat)
    (hL : ∀ t, t < L → (reach next head t).isSome)
    (hnone : reach next head L = none) :
    (∃ fuel, findMiddleFuel next fuel head head =
      some (reach next head (L / 2))) ∧
    (∀ fuel r, findMiddleFuel next fuel head head = some r →
      r = reach next head (L / 2)) ∧
    (1 ≤ L → (reach next head (L / 2)).isSome) ∧
    (head = none → findMiddleFuel next 1 head head = some none) := by
  refine ⟨⟨L / 2 + 1, ?_⟩, ?_, ?_, ?_⟩
  · exact findMiddleFuel_total next head L hL hnone (L / 2) 0 (by omega)
  · intro fuel r h
    exact findMiddleFuel_sound next head L hL hnone fuel 0 r (by omega) h
  · intro h1
    exact hL (L / 2) (by omega)
  · rintro rfl
    rfl

/-- C8 witness: the five-node chain `0 → 1 → 2 → 3 → 4`; the middle is the
node at index `5 / 2 = 2`. -/
def chain5next : Fin 5 → Option (Fin 5) := fun i =>
  if h : (i : Nat) + 1 < 5 then some ⟨(i : Nat) + 1, h⟩ else none

theorem find_middle_correct_witness :
    ∃ fuel, findMiddleFuel chain5next fuel (some 0) (some 0) =
      some (reach chain5next (some 0) (5 / 2)) :=
  (find_middle_correct chain5next (some 0) 5 (by decide) (by decide)).1

/-- On the one-node self-loop, the `find_middle` loop state never changes,
so the fuel always runs out: the while loop never exits. -/
theorem findMiddleFuel_cyc1_loop :
    ∀ fuel, findMiddleFuel cyc1next fuel (some 0) (some 0) = none := by
  intro fuel
  induction fuel with
  | zero => rfl
  | succ f ih => exact ih

/-! Lemmas for `detectCycleStartFuel`. -/

theorem detectPhase2Fuel_succ {n : Nat} (next : Fin n → Option (Fin n))
    (fuel : Nat) (start slw : Option (Fin n)) :
    detectPhase2Fuel next (fuel + 1) start slw =
      if start = slw then some start
      else detectPhase2Fuel next fuel (start.bind next) (slw.bind next) := by
  rw [detectPhase2Fuel]

theorem detectCycleStartFuel_succ {n : Nat} (next : Fin n → Option (Fin n))
    (head : Option (Fin n)) (fuel : Nat) (slow fast : Option (Fin n)) :
    detectCycleStartFuel next head (fuel + 1) slow fast =
      match fast.bind next with
      | some f1 =>
        if slow.bind next = next f1 then
          detectPhase2Fuel next fuel head (slow.bind next)
        else detectCycleStartFuel next head fuel (slow.bind next) (next f1)
      | none => some none := by
  rw [detectCycleStartFuel]

theorem detectCycleStartFuel_step {n : Nat} (next : Fin n → Option (Fin n))
    (head : Option (Fin n)) (fuel a : Nat) (f1 : Fin n)
    (hf1 : reach next head (2 * a + 1) = some f1) :
    detectCycleStartFuel next head (fuel + 1) (reach next head a)
        (reach next head (2 * a)) =
      if reach next head (a + 1) = reach next head (2 * (a + 1)) then
        detectPhase2Fuel next fuel head (reach next head (a + 1))
      else detectCycleStartFuel next head fuel (reach next head (a + 1))
        (reach next head (2 * (a + 1))) := by
  rw [detectCycleStartFuel_succ]
  have hb : (reach next head (2 * a)).bind next = some f1 := hf1
  rw [hb]
  have hn : next f1 = reach next head (2 * (a + 1)) := by
    have h2 : (reach next head (2 * a + 1)).bind next =
        reach next head (2 * a + 1 + 1) := rfl
    rw [reach_congr next head (show 2 * (a + 1) = 2 * a + 1 + 1 by ring), ← h2, hf1]
    rfl
  show (if (reach next head a).bind next = next f1 then
      detectPhase2Fuel next fuel head ((reach next head a).bind next)
    else detectCycleStartFuel next head fuel ((reach next head a).bind next)
      (next f1)) = _
  rw [hn]
  rfl

theorem detectCycleStartFuel_exit {n : Nat} (next : Fin n → Option (Fin n))
    (head : Option (Fin n)) (fuel a : Nat)
    (h : reach next head (2 * a + 1) = none) :
    detectCycleStartFuel next head (fuel + 1) (reach next head a)
      (reach next head (2 * a)) = some none := by
  rw [detectCycleStartFuel_succ]
  have hb : (reach next head (2 * a)).bind next = none := h
  rw [hb]

/-- `e` is the entry node of the reachable cycle: the first node on the
walk from the head that lies on a cycle. -/
def isCycleEntry {n : Nat} (next : Fin n → Option (Fin n))
    (head : Option (Fin n)) (e : Fin n) : Prop :=
  ∃ μ, reach next head μ = some e ∧ onCycle next e ∧
    ∀ t, t < μ → ∀ y, reach next head t = some y → ¬ onCycle next y

theorem exists_cycleEntry {n : Nat} (next : Fin n → Option (Fin n))
    (head : Option (Fin n)) (hc : cycleReachable next head) :
    ∃ e, isCycleEntry next head e := by
  classical
  obtain ⟨x, ⟨t0, ht0⟩, hcx⟩ := hc
  have hp : ∃ t, ∃ y, reach next head t = some y ∧ onCycle next y :=
    ⟨t0, x, ht0, hcx⟩
  obtain ⟨e, he, hce⟩ := Nat.find_spec hp
  refine ⟨e, Nat.find hp, he, hce, ?_⟩
  intro t ht y hy hcy
  exact Nat.find_min hp ht ⟨y, hy, hcy⟩

/-- The key Floyd fact: if `u` is a meeting time (`reach u = reach (2u)`,
`u ≥ 1`), then the second-phase cursors `reach s` and `reach (u + s)`
coincide exactly from the cycle entry time `μ` on. -/
theorem meet_iff_ge_entry {n : Nat} (next : Fin n → Option (Fin n))
    (head : Option (Fin n)) (htot : ∀ t, (reach next head t).isSome)
    {e : Fin n} {μ : Nat} (hμe : reach next head μ = some e)
    (hce : onCycle next e)
    (hmin : ∀ t, t < μ → ∀ y, reach next head t = some y → ¬ onCycle next y)
    {u : Nat} (hu1 : 1 ≤ u)
    (hu : reach next head u = reach next head (2 * u)) :
    ∀ s, reach next head (u + s) = reach next head s ↔ μ ≤ s := by
  obtain ⟨q, hq0, hqe⟩ := hce
  have hperq : reach next head (μ + q) = reach next head μ := by
    have hμe' : reachFrom next head μ = some e := hμe
    have h1 : reach next head (μ + q) = reachFrom next (some e) q := by
      rw [reach, reachFrom_add, hμe']
    rw [h1, hqe, hμe]
  have hperu : reach next head (u + u) = reach next head u := by
    rw [reach_congr next head (show u + u = 2 * u by ring), ← hu]
  intro s
  constructor
  · intro hmeet
    obtain ⟨y, hy⟩ := Option.isSome_iff_exists.mp (htot s)
    have hyc : onCycle next y := by
      refine ⟨u, by omega, ?_⟩
      have hy' : reachFrom next head s = some y := hy
      have h1 : reachFrom next (some y) u = reach next head (s + u) := by
        rw [reach, reachFrom_add, hy']
      rw [h1, reach_congr next head (show s + u = u + s by ring), hmeet, hy]
    by_contra hlt
    push_neg at hlt
    exact hmin s hlt y hy hyc
  · intro hμs
    calc reach next head (u + s)
        = reach next head ((u + s) + u * q) :=
          (reach_periodic_mul next head hperq u (u + s) (by omega)).symm
      _ = reach next head ((s + u * q) + u) :=
          reach_congr next head (by ring)
      _ = reach next head (s + u * q) := by
          refine reach_periodic next head hperu _ ?_
          calc u ≤ u * q := Nat.le_mul_of_pos_right u hq0
            _ ≤ s + u * q := by omega
      _ = reach next head s :=
          reach_periodic_mul next head hperq u s hμs

theorem detectPhase2Fuel_sound {n : Nat} (next : Fin n → Option (Fin n))
    (head : Option (Fin n)) (htot : ∀ t, (reach next head t).isSome)
    {e : Fin n} {μ : Nat} (hμe : reach next head μ = some e)
    (hce : onCycle next e)
    (hmin : ∀ t, t < μ → ∀ y, reach next head t = some y → ¬ onCycle next y)
    {u : Nat} (hu1 : 1 ≤ u)
    (hu : reach next head u = reach next head (2 * u)) :
    ∀ fuel s r, s ≤ μ →
      detectPhase2Fuel next fuel (reach next head s)
        (reach next head (u + s)) = some r →
      r = some e := by
  have hiff := meet_iff_ge_entry next head htot hμe hce hmin hu1 hu
  intro fuel
  induction fuel with
  | zero => intro s r _ h; exact Option.noConfusion h
  | succ fuel ih =>
    intro s r hs h
    rw [detectPhase2Fuel_succ] at h
    by_cases heq : reach next head s = reach next head (u + s)
    · rw [if_pos heq] at h
      have hμs : μ ≤ s := (hiff s).mp heq.symm
      have hr := Option.some.inj h
      rw [← hr, show s = μ by omega]
      exact hμe
    · rw [if_neg heq] at h
      have hslt : s < μ := by
        by_contra hge
        exact heq ((hiff s).mpr (by omega)).symm
      have e1 : (reach next head s).bind next = reach next head (s + 1) := rfl
      have e2 : (reach next head (u + s)).bind next =
          reach next head (u + (s + 1)) := by
        have h2 : (reach next head (u + s)).bind next =
            reach next head ((u + s) + 1) := rfl
        rw [h2]
        exact reach_congr next head (by omega)
      rw [e1, e2] at h
      exact ih (s + 1) r (by omega) h

theorem detectPhase2Fuel_total {n : Nat} (next : Fin n → Option (Fin n))
    (head : Option (Fin n)) (htot : ∀ t, (reach next head t).isSome)
    {e : Fin n} {μ : Nat} (hμe : reach next head μ = some e)
    (hce : onCycle next e)
    (hmin : ∀ t, t < μ → ∀ y, reach next head t = some y → ¬ onCycle next y)
    {u : Nat} (hu1 : 1 ≤ u)
    (hu : reach next head u = reach next head (2 * u)) :
    ∀ d s, s + d = μ →
      detectPhase2Fuel next (d + 1) (reach next head s)
        (reach next head (u + s)) = some (some e) := by
  have hiff := meet_iff_ge_entry next head htot hμe hce hmin hu1 hu
  intro d
  induction d with
  | zero =>
    intro s hs
    rw [detectPhase2Fuel_succ, if_pos ((hiff s).mpr (by omega)).symm,
      show s = μ by omega, hμe]
  | succ d ih =>
    intro s hs
    have hne : reach next head s ≠ reach next head (u + s) := by
      intro heq
      have := (hiff s).mp heq.symm
      omega
    rw [detectPhase2Fuel_succ, if_neg hne]
    have e1 : (reach next head s).bind next = reach next head (s + 1) := rfl
    have e2 : (reach next head (u + s)).bind next =
        reach next head (u + (s + 1)) := by
      have h2 : (reach next head (u + s)).bind next =
          reach next head ((u + s) + 1) := rfl
      rw [h2]
      exact reach_congr next head (by omega)
    rw [e1, e2]
    exact ih (s + 1) (by omega)

theorem detectCycleStartFuel_sound_cycle {n : Nat}
    (next : Fin n → Option (Fin n)) (head : Option (Fin n))
    (htot : ∀ t, (reach next head t).isSome)
    {e : Fin n} {μ : Nat} (hμe : reach next head μ = some e)
    (hce : onCycle next e)
    (hmin : ∀ t, t < μ → ∀ y, reach next head t = some y → ¬ onCycle next y) :
    ∀ fuel a r, detectCycleStartFuel next head fuel (reach next head a)
        (reach next head (2 * a)) = some r →
      r = some e := by
  intro fuel
  induction fuel with
  | zero => intro a r h; exact Option.noConfusion h
  | succ fuel ih =>
    intro a r h
    obtain ⟨f1, hf1⟩ := Option.isSome_iff_exists.mp (htot (2 * a + 1))
    rw [detectCycleStartFuel_step next head fuel a f1 hf1] at h
    by_cases hm : reach next head (a + 1) = reach next head (2 * (a + 1))
    · rw [if_pos hm] at h
      exact detectPhase2Fuel_sound next head htot hμe hce hmin
        (show 1 ≤ a + 1 by omega) hm fuel 0 r (by omega) h
    · rw [if_neg hm] at h
      exact ih (a + 1) r h

theorem detectCycleStartFuel_total_cycle {n : Nat}
    (next : Fin n → Option (Fin n)) (head : Option (Fin n))
    (hc : cycleReachable next head)
    {e : Fin n} {μ : Nat} (hμe : reach next head μ = some e)
    (hce : onCycle next e)
    (hmin : ∀ t, t < μ → ∀ y, reach next head t = some y → ¬ onCycle next y) :
    ∃ fuel, detectCycleStartFuel next head fuel head head = some (some e) := by
  have htot := reach_total_of_cycleReachable next head hc
  have hex := exists_meet next head hc
  obtain ⟨hu1, humeet⟩ := Nat.find_spec hex
  have run : ∀ d s, s + 1 + d = Nat.find hex →
      detectCycleStartFuel next head (d + 1 + (μ + 1)) (reach next head s)
        (reach next head (2 * s)) = some (some e) := by
    intro d
    induction d with
    | zero =>
      intro s hs
      obtain ⟨f1, hf1⟩ := Option.isSome_iff_exists.mp (htot (2 * s + 1))
      rw [show 0 + 1 + (μ + 1) = (μ + 1) + 1 by omega,
        detectCycleStartFuel_step next head (μ + 1) s f1 hf1]
      have hmeets : reach next head (s + 1) = reach next head (2 * (s + 1)) := by
        rw [show s + 1 = Nat.find hex by omega]
        exact humeet
      rw [if_pos hmeets, show s + 1 = Nat.find hex by omega]
      exact detectPhase2Fuel_total next head htot hμe hce hmin hu1 humeet μ 0
        (by omega)
    | succ d ih =>
      intro s hs
      obtain ⟨f1, hf1⟩ := Option.isSome_iff_exists.mp (htot (2 * s + 1))
      rw [show d + 1 + 1 + (μ + 1) = (d + 1 + (μ + 1)) + 1 by omega,
        detectCycleStartFuel_step next head (d + 1 + (μ + 1)) s f1 hf1]
      have hne : reach next head (s + 1) ≠ reach next head (2 * (s + 1)) := by
        intro heq
        exact Nat.find_min hex (show s + 1 < Nat.find hex by omega)
          ⟨by omega, heq⟩
      rw [if_neg hne]
      exact ih (s + 1) (by omega)
  refine ⟨(Nat.find hex - 1) + 1 + (μ + 1), ?_⟩
  exact run (Nat.find hex - 1) 0 (by omega)

theorem detectCycleStartFuel_no_cycle {n : Nat}
    (next : Fin n → Option (Fin n)) (head : Option (Fin n))
    {m : Nat} (hm : reach next head m = none) :
    ∀ fuel a, 1 ≤ fuel → m ≤ 2 * a + 2 * fuel - 1 →
      detectCycleStartFuel next head fuel (reach next head a)
        (reach next head (2 * a)) = some none := by
  have hnc : ¬ cycleReachable next head :=
    (not_cycleReachable_iff_none next head).mpr ⟨m, hm⟩
  intro fuel
  induction fuel with
  | zero => intro a h1 _; omega
  | succ fuel ih =>
    intro a _ h2
    rcases ho : reach next head (2 * a + 1) with _ | f1
    · exact detectCycleStartFuel_exit next head fuel a ho
    · rw [detectCycleStartFuel_step next head fuel a f1 ho]
      have hne : reach next head (a + 1) ≠ reach next head (2 * (a + 1)) := by
        intro heq
        rcases hv : reach next head (a + 1) with _ | x
        · have hmono := reach_none_mono next head hv (show a + 1 ≤ 2 * a + 1 by omega)
          rw [hmono] at ho
          exact Option.noConfusion ho
        · have hv2 : reach next head (2 * (a + 1)) = some x := by rw [← heq, hv]
          exact hnc (cycleReachable_of_repeat next head hv hv2 (by omega))
      rw [if_neg hne]
      have hm2 : 2 * a + 2 ≤ m := by
        by_contra hcon
        have hmono := reach_none_mono next head hm (show m ≤ 2 * a + 1 by omega)
        rw [hmono] at ho
        exact Option.noConfusion ho
      exact ih (a + 1) (by omega) (by omega)

theorem detectCycleStartFuel_sound_no_cycle {n : Nat}
    (next : Fin n → Option (Fin n)) (head : Option (Fin n))
    (hnc : ¬ cycleReachable next head) :
    ∀ fuel a r, detectCycleStartFuel next head fuel (reach next head a)
        (reach next head (2 * a)) = some r →
      r = none := by
  intro fuel
  induction fuel with
  | zero => intro a r h; exact Option.noConfusion h
  | succ fuel ih =>
    intro a r h
    rcases ho : reach next head (2 * a + 1) with _ | f1
    · rw [detectCycleStartFuel_exit next head fuel a ho] at h
      exact (Option.some.inj h).symm
    · rw [detectCycleStartFuel_step next head fuel a f1 ho] at h
      have hne : reach next head (a + 1) ≠ reach next head (2 * (a + 1)) := by
        intro heq
        rcases hv : reach next head (a + 1) with _ | x
        · have hmono := reach_none_mono next head hv (show a + 1 ≤ 2 * a + 1 by omega)
          rw [hmono] at ho
          exact Option.noConfusion ho
        · have hv2 : reach next head (2 * (a + 1)) = some x := by rw [← heq, hv]
          exact hnc (cycleReachable_of_repeat next head hv hv2 (by omega))
      rw [if_neg hne] at h
      exact ih (a + 1) r h

/-- C3: when no cycle is reachable from the head — in particular when the
head is absent — `detect_cycle_start` terminates with `none`, and any
terminating run returns `none`; when a cycle is reachable, the cycle has
an entry node (the first node of the walk lying on a cycle) and the
function terminates returning exactly that node. -/
theorem detect_cycle_start_correct {n : Nat} (next : Fin n → Option (Fin n))
    (head : Option (Fin n)) :
    ((¬ cycleReachable next head) →
      (∃ fuel, detectCycleStartFuel next head fuel head head = some none) ∧
      (∀ fuel r, detectCycleStartFuel next head fuel head head = some r →
        r = none)) ∧
    (cycleReachable next head →
      ∃ e, isCycleEntry next head e ∧
        (∃ fuel, detectCycleStartFuel next head fuel head head =
          some (some e)) ∧
        (∀ fuel r, detectCycleStartFuel next head fuel head head = some r →
          r = some e)) := by
  constructor
  · intro hnc
    obtain ⟨m, hm⟩ := (not_cycleReachable_iff_none next head).mp hnc
    constructor
    · exact ⟨m + 1,
        detectCycleStartFuel_no_cycle next head hm (m + 1) 0 (by omega) (by omega)⟩
    · intro fuel r h
      exact detectCycleStartFuel_sound_no_cycle next head hnc fuel 0 r h
  · intro hc
    obtain ⟨e, μ, hμe, hce, hmin⟩ := exists_cycleEntry next head hc
    have htot := reach_total_of_cycleReachable next head hc
    refine ⟨e, ⟨μ, hμe, hce, hmin⟩, ?_, ?_⟩
    · exact detectCycleStartFuel_total_cycle next head hc hμe hce hmin
    · intro fuel r h
      exact detectCycleStartFuel_sound_cycle next head htot hμe hce hmin fuel 0 r h

/-- C3 witness: the one-node self-loop; the entry node is node 0. -/
theorem detect_cycle_start_correct_witness :
    ∃ e, isCycleEntry cyc1next (some 0) e ∧
      (∃ fuel, detectCycleStartFuel cyc1next (some 0) fuel (some 0) (some 0) =
        some (some e)) ∧
      (∀ fuel r, detectCycleStartFuel cyc1next (some 0) fuel (some 0) (some 0) =
        some r → r = some e) :=
  (detect_cycle_start_correct cyc1next (some 0)).2 ⟨0, ⟨0, rfl⟩, 1, by omega, rfl⟩

/-- C2 counterexample: on the one-node cyclic structure `0 → 0`, the
`find_middle` loop never exits — no amount of fuel yields a result — so
`find_middle` does not terminate on every finite structure with cyclic
links. -/
theorem find_middle_nonterminating_counterexample :
    ¬ ∃ fuel r, findMiddleFuel cyc1next fuel (some 0) (some 0) = some r := by
  rintro ⟨fuel, r, h⟩
  rw [findMiddleFuel_cyc1_loop fuel] at h
  exact Option.noConfusion h

/-- C2 amended: `has_cycle` and `detect_cycle_start` terminate on every
finite singly-linked structure, cyclic or not; `find_middle` terminates on
every structure on which the walk from the head eventually falls off the
end (i.e. no cycle is reachable from the head). -/
theorem fast_slow_termination {n : Nat} (next : Fin n → Option (Fin n))
    (head : Option (Fin n)) :
    (∃ fuel b, hasCycleFuel next fuel head head = some b) ∧
    (∃ fuel r, detectCycleStartFuel next head fuel head head = some r) ∧
    ((∃ m, reach next head m = none) →
      ∃ fuel r, findMiddleFuel next fuel head head = some r) := by
  refine ⟨hasCycle_terminates next head, ?_, ?_⟩
  · by_cases hc : cycleReachable next head
    · obtain ⟨e, μ, hμe, hce, hmin⟩ := exists_cycleEntry next head hc
      obtain ⟨fuel, hf⟩ :=
        detectCycleStartFuel_total_cycle next head hc hμe hce hmin
      exact ⟨fuel, some e, hf⟩
    · obtain ⟨m, hm⟩ := (not_cycleReachable_iff_none next head).mp hc
      exact ⟨m + 1, none,
        detectCycleStartFuel_no_cycle next head hm (m + 1) 0 (by omega) (by omega)⟩
  · rintro ⟨m, hm⟩
    have hex : ∃ t, reach next head t = none := ⟨m, hm⟩
    have hnone := Nat.find_spec hex
    have hL : ∀ t, t < Nat.find hex → (reach next head t).isSome := by
      intro t ht
      rcases ho : reach next head t with _ | x
      · exact absurd ho (Nat.find_min hex ht)
      · rfl
    exact ⟨Nat.find hex / 2 + 1, reach next head (Nat.find hex / 2),
      findMiddleFuel_total next head (Nat.find hex) hL hnone
        (Nat.find hex / 2) 0 (by omega)⟩

/-- C2 amended witness: the acyclic five-node chain. -/
theorem fast_slow_termination_witness :
    (∃ fuel b, hasCycleFuel chain5next fuel (some 0) (some 0) = some b) ∧
    (∃ fuel r, detectCycleStartFuel chain5next (some 0) fuel (some 0) (some 0) =
      some r) ∧
    (∃ fuel r, findMiddleFuel chain5next fuel (some 0) (some 0) = some r) := by
  have h := fast_slow_termination chain5next (some 0)
  exact ⟨h.1, h.2.1, h.2.2 ⟨5, by decide⟩⟩

end TwoPointer
